import Mathlib

/-!
Verification of the hyper tic-tac-toe board (`uttt/hyper_board.py`).

The development shallowly embeds the Python source:

* `direction_vectors` mirrors the module-level function of the same name:
  the Cartesian product `product([1, 0, -1], repeat=n)` followed by the
  backwards deletion loop that removes a vector whenever its negation is
  still present.
* `Player`, `HyperBoard` and `HyperBoard.place_marker` mirror the classes
  of the source.  Marker names are modelled as `Option Int`: a Python
  object used as a player name is either the `None` sentinel (`none`) or
  some comparable value (`some v`).  Cells hold `Option Player` (`none`
  models an empty numpy cell).
* Python's in-place mutation is modelled functionally: `place_marker`
  returns the updated board; `place_run` gives the state of the object
  after the call, using that `MoveError` is raised before any mutation.

Machine integers do not overflow here (Python ints are unbounded), so
`Int`/`Nat` are used directly.
-/

set_option maxRecDepth 4096

/-- Negation of an integer vector, `-directions[i-1]` in the source. -/
def negVec (v : List Int) : List Int := v.map (fun c => -c)

/-- The list `[d for d in product([1, 0, -1], repeat=n)]` in the order
produced by `itertools.product`: the first component varies slowest, and
for each component the digit order is `1, 0, -1`. -/
def prodTuples : Nat → List (List Int)
  | 0 => [[]]
  | n + 1 =>
      (prodTuples n).map (fun t => 1 :: t)
        ++ (prodTuples n).map (fun t => 0 :: t)
        ++ (prodTuples n).map (fun t => -1 :: t)

/-- One iteration of the deletion loop of `direction_vectors`: at index
`j`, if the negation of `directions[j]` is present in the current list,
delete index `j` (`np.delete(directions, (i-1), axis=0)`). -/
def delStep (ds : List (List Int)) (j : Nat) : List (List Int) :=
  if negVec (ds.getD j []) ∈ ds then ds.eraseIdx j else ds

/-- The loop `for i in range(len, 0, -1)` of `direction_vectors`, processing
indices `j-1, j-2, ..., 0` of the evolving list.  Deletions only ever
happen at the index currently being processed, so earlier positions still
hold the original elements. -/
def dedupFrom : List (List Int) → Nat → List (List Int)
  | ds, 0 => ds
  | ds, j + 1 => dedupFrom (delStep ds j) j

/-- `direction_vectors(n)` from the source: generate all `{1,0,-1}`-tuples
and delete, scanning from the end, every tuple whose negation is still in
the list. -/
def direction_vectors (n : Nat) : List (List Int) :=
  dedupFrom (prodTuples n) (prodTuples n).length

/-- Spec-side predicate: the first nonzero component of the vector is `+1`.
Used to characterise which representative of each negation pair the
deletion loop keeps. -/
def posLead : List Int → Bool
  | [] => false
  | c :: t => if c = 0 then posLead t else decide (c = 1)

/-- A marker as in class `Player`: it carries the `name` passed by the
player.  The name is `none` when the Python caller passed `None`, and
`some v` for an ordinary comparable value. -/
structure Player where
  name : Option Int
deriving DecidableEq, Repr

/-- `Player.value` returns the stored name (source: `return self.name`). -/
def Player.value (p : Player) : Option Int := p.name

/-- The dynamically typed `marker` argument of `place_marker`: either a
plain Python `int` or a `Player` object. -/
inductive Markerish where
  | int : Int → Markerish
  | player : Player → Markerish
deriving DecidableEq, Repr

/-- The wrapping performed by `if type(marker) is int: marker = Player(marker)`. -/
def Markerish.toPlayer : Markerish → Player
  | .int m => ⟨some m⟩
  | .player p => p

/-- The `MoveError` exception imported from the repository's `util` module.
Modelled from the spec: `util` is not under `src/`; per the spec's error
design it is the recoverable "occupied cell" placement error.  The
formatted message string is not modelled. -/
inductive MoveError where
  | mk : MoveError
deriving DecidableEq, Repr

/-- The state of a `HyperBoard` object: recorded winner, `shape`, the cell
grid (a total function on positions; numpy cells start as `None`), the
dimension count, the side length, and the precomputed direction catalog
`_directions`. -/
structure HyperBoard where
  winner : Option Player
  shape : List Nat
  board : List Int → Option Player
  ndims : Nat
  side_length : Nat
  _directions : List (List Int)

/-- `HyperBoard.__init__`: no winner, hypercubic shape, empty grid, and the
direction catalog computed once.  The constructor performs no validation;
over natural-number arguments it always succeeds. -/
def HyperBoard.init (side_length : Nat) (dimensions : Nat) : HyperBoard :=
  { winner := none
    shape := List.replicate dimensions side_length
    board := fun _ => none
    ndims := dimensions
    side_length := side_length
    _directions := direction_vectors dimensions }

/-- Construction with an explicit error channel, for stating the spec's
"construction error" contract.  The Python constructor raises nothing for
natural-number arguments (numpy rejects only negative sizes, which `Nat`
excludes), so this is always `some`. -/
def HyperBoard.initE (side_length : Nat) (dimensions : Nat) : Option HyperBoard :=
  some (HyperBoard.init side_length dimensions)

/-- One `zip(direction, position)` iteration of the interval-tightening
loop in `place_marker`.  The accumulator is `(test_min, test_max)`; the
two separate `if` statements of the source are kept. -/
def tightenStep (L : Int) (acc : Int × Int) (dxx : Int × Int) : Int × Int :=
  let acc1 :=
    if dxx.1 = 1 then (max acc.1 (-dxx.2), min acc.2 (L - dxx.2)) else acc
  if dxx.1 = -1 then (max acc1.1 (1 - (L - dxx.2)), min acc1.2 (dxx.2 + 1))
  else acc1

/-- The `(test_min, test_max)` pair computed by `place_marker` for one
direction: initialised to `(-self.ndims, self.ndims + 1)` and tightened
over `zip(direction, position)`. -/
def lineRange (b : HyperBoard) (direction : List Int) (position : List Int) : Int × Int :=
  (direction.zip position).foldl (tightenStep (b.side_length : Int))
    (-(b.ndims : Int), (b.ndims : Int) + 1)

/-- Componentwise vector addition of equal-length numpy arrays. -/
def vadd (p : List Int) (q : List Int) : List Int :=
  (p.zip q).map (fun a => a.1 + a.2)

/-- Scalar multiple `i * direction` of a numpy vector. -/
def smul (i : Int) (v : List Int) : List Int := v.map (fun c => i * c)

/-- The cells `[self.board[tuple(position + i*direction)] for i in
range(test_min, test_max)]`. -/
def lineCells (b : HyperBoard) (position : List Int) (direction : List Int)
    (lo : Int) (hi : Int) : List (Option Player) :=
  (List.range (hi - lo).toNat).map
    (fun k : Nat => b.board (vadd position (smul (lo + (k : Int)) direction)))

/-- The mapping `marker.value() if marker is not None else None` applied to
one cell: an empty cell and a marker whose `value()` is `None` both map to
`none`. -/
def cellValue (c : Option Player) : Option Int := c.bind Player.value

/-- The test `None not in line and len(set(line)) == 1` on the mapped line
values: no `None` entries, and all entries equal (a set of size one). -/
def lineWins : List (Option Int) → Bool
  | [] => false
  | v :: rest => (v :: rest).all Option.isSome && rest.all (fun u => decide (u = v))

/-- The win test of one direction: the tightened interval must span
exactly `side_length`, and then the mapped line must be uniform and free
of `None`. -/
def dirWins (b : HyperBoard) (position : List Int) (direction : List Int) : Bool :=
  let r := lineRange b direction position
  if r.2 - r.1 = (b.side_length : Int) then
    lineWins ((lineCells b position direction r.1 r.2).map cellValue)
  else false

/-- The `for direction in self._directions` loop: return `True` on the
first winning direction, `False` when the catalog is exhausted. -/
def checkWin (b : HyperBoard) (position : List Int) : List (List Int) → Bool
  | [] => false
  | d :: rest => if dirWins b position d then true else checkWin b position rest

/-- `HyperBoard.place_marker`: wrap an `int` marker into a `Player`, raise
`MoveError` when the target cell is occupied, otherwise store the marker,
scan all directions, latch `self.winner = marker` and return `True` on a
win, else return `False`.  The early `return True` inside the loop is
modelled by `checkWin` returning on the first winning direction. -/
def HyperBoard.place_marker (b : HyperBoard) (marker : Markerish)
    (position : List Int) : Except MoveError (HyperBoard × Bool) :=
  let mk := marker.toPlayer
  match b.board position with
  | some _ => Except.error MoveError.mk
  | none =>
    let b' : HyperBoard :=
      { b with board := fun q => if q = position then some mk else b.board q }
    if checkWin b' position b'._directions then
      Except.ok ({ b' with winner := some mk }, true)
    else
      Except.ok (b', false)

/-- State of the Python object after a `place_marker` call: on success the
mutated board together with the returned boolean, on `MoveError` the
unchanged board (the exception is raised before any mutation). -/
def HyperBoard.place_run (b : HyperBoard) (marker : Markerish)
    (position : List Int) : HyperBoard × Option Bool :=
  match b.place_marker marker position with
  | Except.ok (b', w) => (b', some w)
  | Except.error _ => (b, none)

/-- An in-bounds position: correct arity and every coordinate inside
`[0, side_length)`. -/
def HyperBoard.inBounds (b : HyperBoard) (position : List Int) : Bool :=
  decide (position.length = b.ndims)
    && position.all (fun x => decide (0 ≤ x) && decide (x < (b.side_length : Int)))

/-- The board after the store `self.board[position] = marker` of a
`place_marker` call on an empty cell (including the int-to-`Player`
wrapping). -/
def placedBoard (b : HyperBoard) (marker : Markerish) (position : List Int) : HyperBoard :=
  { b with board := fun q => if q = position then some marker.toPlayer else b.board q }

/-- First placement of the 1-dimensional side-3 row scenario. -/
def row1 : HyperBoard × Option Bool := (HyperBoard.init 3 1).place_run (Markerish.int 1) [0]

/-- Second placement of the 1-dimensional side-3 row scenario. -/
def row2 : HyperBoard × Option Bool := row1.1.place_run (Markerish.int 1) [1]

/-- Third placement of the 1-dimensional side-3 row scenario: it completes
the full row. -/
def row3 : HyperBoard × Option Bool := row2.1.place_run (Markerish.int 1) [2]

/-- Winner-overwrite scenario on a 2x2 board, move 1: player 1 at (0,0). -/
def ow1 : HyperBoard × Option Bool := (HyperBoard.init 2 2).place_run (Markerish.int 1) [0, 0]

/-- Winner-overwrite scenario, move 2: player 1 at (0,1) completes a row. -/
def ow2 : HyperBoard × Option Bool := ow1.1.place_run (Markerish.int 1) [0, 1]

/-- Winner-overwrite scenario, move 3: player 2 at (1,0). -/
def ow3 : HyperBoard × Option Bool := ow2.1.place_run (Markerish.int 2) [1, 0]

/-- Winner-overwrite scenario, move 4: player 2 at (1,1) completes the
other row. -/
def ow4 : HyperBoard × Option Bool := ow3.1.place_run (Markerish.int 2) [1, 1]

/-- A board whose single cell is occupied by player 5. -/
def occB : HyperBoard := ((HyperBoard.init 1 1).place_run (Markerish.int 5) [0]).1

/-- The 1x1 board after placing the plain integer marker 5. -/
def intB : HyperBoard := ((HyperBoard.init 1 1).place_run (Markerish.int 5) [0]).1

/-- A 1-dimensional side-2 board after one non-winning placement. -/
def frameB : HyperBoard := ((HyperBoard.init 2 1).place_run (Markerish.int 1) [0]).1

/-! ### Basic facts about `posLead`, `negVec` and `prodTuples` -/

theorem negVec_nil : negVec [] = [] := rfl

theorem negVec_cons (c : Int) (t : List Int) : negVec (c :: t) = -c :: negVec t := rfl

theorem posLead_cons_one (t : List Int) : posLead (1 :: t) = true := rfl

theorem posLead_cons_zero (t : List Int) : posLead (0 :: t) = posLead t := rfl

theorem posLead_cons_negone (t : List Int) : posLead (-1 :: t) = false := rfl

theorem posLead_negVec : ∀ v : List Int, posLead v = true → posLead (negVec v) = false := by
  intro v
  induction v with
  | nil => intro h; exact absurd h (by simp [posLead])
  | cons c t ih =>
    intro h
    rw [negVec_cons]
    by_cases hc : c = 0
    · subst hc
      rw [posLead_cons_zero] at h
      simpa [posLead] using ih h
    · have h1 : c = 1 := by
        have := h
        simp only [posLead, if_neg hc] at this
        exact of_decide_eq_true this
      subst h1
      simp [posLead]

theorem posLead_exists_ne : ∀ v : List Int, posLead v = true → ∃ c ∈ v, c ≠ 0 := by
  intro v
  induction v with
  | nil => intro h; exact absurd h (by simp [posLead])
  | cons c t ih =>
    intro h
    by_cases hc : c = 0
    · subst hc
      rw [posLead_cons_zero] at h
      obtain ⟨d, hd, hd0⟩ := ih h
      exact ⟨d, List.mem_cons_of_mem _ hd, hd0⟩
    · exact ⟨c, List.mem_cons_self _ _, hc⟩

theorem posLead_or : ∀ v : List Int, (∀ c ∈ v, c = 1 ∨ c = 0 ∨ c = -1) →
    (∃ c ∈ v, c ≠ 0) → posLead v = true ∨ posLead (negVec v) = true := by
  intro v
  induction v with
  | nil => intro _ h; simp at h
  | cons c t ih =>
    intro hall hex
    rcases hall c (List.mem_cons_self _ _) with h1 | h0 | hm1
    · subst h1; left; exact posLead_cons_one t
    · subst h0
      rw [negVec_cons, posLead_cons_zero]
      have : (0 : Int) = -0 := by norm_num
      have hz : posLead (-(0:Int) :: negVec t) = posLead (negVec t) := by
        norm_num [posLead_cons_zero]
      rw [hz]
      apply ih
      · intro d hd; exact hall d (List.mem_cons_of_mem _ hd)
      · obtain ⟨d, hd, hd0⟩ := hex
        rcases List.mem_cons.mp hd with rfl | hd'
        · exact absurd rfl hd0
        · exact ⟨d, hd', hd0⟩
    · subst hm1
      right
      rw [negVec_cons]
      norm_num [posLead_cons_one]

theorem mem_prodTuples : ∀ (n : Nat) (v : List Int),
    v ∈ prodTuples n ↔ v.length = n ∧ ∀ c ∈ v, c = 1 ∨ c = 0 ∨ c = -1 := by
  intro n
  induction n with
  | zero =>
    intro v
    constructor
    · intro h
      simp only [prodTuples, List.mem_singleton] at h
      subst h; simp
    · rintro ⟨hlen, -⟩
      rw [List.length_eq_zero] at hlen
      subst hlen; simp [prodTuples]
  | succ n ih =>
    intro v
    constructor
    · intro h
      simp only [prodTuples, List.mem_append, List.mem_map] at h
      rcases h with (⟨t, ht, rfl⟩ | ⟨t, ht, rfl⟩) | ⟨t, ht, rfl⟩ <;>
        obtain ⟨hlen, hall⟩ := (ih t).mp ht <;>
        refine ⟨by simp [hlen], ?_⟩ <;>
        intro c hc <;>
        rcases List.mem_cons.mp hc with rfl | hc'
      · left; rfl
      · exact hall c hc'
      · right; left; rfl
      · exact hall c hc'
      · right; right; rfl
      · exact hall c hc'
    · rintro ⟨hlen, hall⟩
      cases v with
      | nil => simp at hlen
      | cons c t =>
        have hlent : t.length = n := by simpa using hlen
        have hallt : ∀ d ∈ t, d = 1 ∨ d = 0 ∨ d = -1 := fun d hd =>
          hall d (List.mem_cons_of_mem _ hd)
        have htmem : t ∈ prodTuples n := (ih t).mpr ⟨hlent, hallt⟩
        simp only [prodTuples, List.mem_append, List.mem_map]
        rcases hall c (List.mem_cons_self _ _) with rfl | rfl | rfl
        · exact Or.inl (Or.inl ⟨t, htmem, rfl⟩)
        · exact Or.inl (Or.inr ⟨t, htmem, rfl⟩)
        · exact Or.inr ⟨t, htmem, rfl⟩

theorem negVec_length (v : List Int) : (negVec v).length = v.length := by
  simp [negVec]

theorem negVec_mem_prodTuples {n : Nat} {v : List Int} (h : v ∈ prodTuples n) :
    negVec v ∈ prodTuples n := by
  obtain ⟨hlen, hall⟩ := (mem_prodTuples n v).mp h
  refine (mem_prodTuples n (negVec v)).mpr ⟨by rw [negVec_length, hlen], ?_⟩
  intro c hc
  simp only [negVec, List.mem_map] at hc
  obtain ⟨d, hd, rfl⟩ := hc
  rcases hall d hd with rfl | rfl | rfl
  · right; right; rfl
  · right; left; rfl
  · left; norm_num

theorem length_prodTuples : ∀ n : Nat, (prodTuples n).length = 3 ^ n := by
  intro n
  induction n with
  | zero => rfl
  | succ n ih => simp [prodTuples, ih, pow_succ]; ring

/-! ### List splitting helpers for the deletion loop -/

theorem getD_append_length {α : Type} :
    ∀ (l1 : List α) (v : α) (l2 : List α) (d : α),
      (l1 ++ v :: l2).getD l1.length d = v := by
  intro l1
  induction l1 with
  | nil => intro v l2 d; rfl
  | cons a l1 ih => intro v l2 d; simpa using ih v l2 d

theorem eraseIdx_append_length {α : Type} :
    ∀ (l1 : List α) (v : α) (l2 : List α),
      (l1 ++ v :: l2).eraseIdx l1.length = l1 ++ l2 := by
  intro l1
  induction l1 with
  | nil => intro v l2; rfl
  | cons a l1 ih => intro v l2; simp [List.eraseIdx, ih v l2]

theorem append_split {α : Type} :
    ∀ (A p1 : List α) (B : List α) (v : α) (p2 : List α),
      A ++ B = p1 ++ v :: p2 →
      (∃ p2a, A = p1 ++ v :: p2a ∧ p2 = p2a ++ B) ∨
      (∃ p1b, p1 = A ++ p1b ∧ B = p1b ++ v :: p2) := by
  intro A
  induction A with
  | nil =>
    intro p1 B v p2 h
    right
    exact ⟨p1, rfl, by simpa using h⟩
  | cons a A ih =>
    intro p1 B v p2 h
    cases p1 with
    | nil =>
      simp only [List.cons_append, List.nil_append] at h
      obtain ⟨rfl, rfl⟩ := List.cons.inj h
      exact Or.inl ⟨A, rfl, rfl⟩
    | cons q p1 =>
      simp only [List.cons_append] at h
      obtain ⟨rfl, h2⟩ := List.cons.inj h
      rcases ih p1 B v p2 h2 with ⟨p2a, hA, hp2⟩ | ⟨p1b, hp1, hB⟩
      · exact Or.inl ⟨p2a, by rw [hA]; rfl, hp2⟩
      · exact Or.inr ⟨p1b, by rw [hp1]; rfl, hB⟩

theorem map_eq_append_split {α β : Type} (f : α → β) :
    ∀ (T : List α) (p1 : List β) (v : β) (p2 : List β),
      T.map f = p1 ++ v :: p2 →
      ∃ t1 w t2, T = t1 ++ w :: t2 ∧ p1 = t1.map f ∧ v = f w ∧ p2 = t2.map f := by
  intro T
  induction T with
  | nil => intro p1 v p2 h; simp at h
  | cons t T ih =>
    intro p1 v p2 h
    cases p1 with
    | nil =>
      simp only [List.map_cons, List.nil_append] at h
      obtain ⟨rfl, rfl⟩ := List.cons.inj h
      exact ⟨[], t, T, rfl, rfl, rfl, rfl⟩
    | cons q p1 =>
      simp only [List.map_cons, List.cons_append] at h
      obtain ⟨rfl, h2⟩ := List.cons.inj h
      obtain ⟨t1, w, t2, hT, hp1, hv, hp2⟩ := ih p1 v p2 h2
      exact ⟨t :: t1, w, t2, by rw [hT]; rfl, by rw [hp1]; rfl, hv, hp2⟩

/-! ### Which representative of each negation pair comes first -/

theorem ord_prodTuples : ∀ (n : Nat) (p1 : List (List Int)) (v : List Int)
    (p2 : List (List Int)),
    prodTuples n = p1 ++ v :: p2 →
    (posLead v = false → negVec v ∈ p1 ++ [v]) ∧
    (posLead v = true → negVec v ∉ p1 ++ [v]) := by
  intro n
  induction n with
  | zero =>
    intro p1 v p2 h
    cases p1 with
    | nil =>
      simp only [prodTuples, List.nil_append] at h
      obtain ⟨rfl, rfl⟩ := List.cons.inj h.symm
      constructor
      · intro _; simp [negVec]
      · intro ht; exact absurd ht (by simp [posLead])
    | cons a p1 =>
      exfalso
      have := congrArg List.length h
      simp [prodTuples] at this
  | succ n ih =>
    intro p1 v p2 h
    have h' : (prodTuples n).map (fun t => 1 :: t) ++
        ((prodTuples n).map (fun t => 0 :: t) ++
          (prodTuples n).map (fun t => -1 :: t)) = p1 ++ v :: p2 := by
      rw [← List.append_assoc]; exact h
    rcases append_split _ _ _ _ _ h' with ⟨p2a, hA, hp2⟩ | ⟨p1b, hp1, hBC⟩
    · -- v lies in the block of vectors starting with 1
      obtain ⟨t1, w, t2, hT, hp1, hv, hp2a⟩ := map_eq_append_split _ _ _ _ _ hA
      subst hv
      constructor
      · intro hf; exact absurd hf (by simp [posLead_cons_one])
      · intro _ hmem
        rw [negVec_cons] at hmem
        rcases List.mem_append.mp hmem with hm | hm
        · rw [hp1] at hm
          obtain ⟨u, _, he⟩ := List.mem_map.mp hm
          have : (1 : Int) = -1 := (List.cons.inj he).1
          norm_num at this
        · have he := List.mem_singleton.mp hm
          have : (-1 : Int) = 1 := (List.cons.inj he).1
          norm_num at this
    · rcases append_split _ _ _ _ _ hBC with ⟨p2b, hB, hp2'⟩ | ⟨p1c, hp1b, hC⟩
      · -- v lies in the block of vectors starting with 0
        obtain ⟨t1, w, t2, hT, hp1b', hv, hp2b⟩ := map_eq_append_split _ _ _ _ _ hB
        subst hv
        have hIH := ih t1 w t2 hT
        constructor
        · intro hf
          rw [posLead_cons_zero] at hf
          have hmem := hIH.1 hf
          rw [negVec_cons, neg_zero]
          rcases List.mem_append.mp hmem with hm | hm
          · refine List.mem_append_left _ ?_
            rw [hp1]
            refine List.mem_append_right _ ?_
            rw [hp1b']
            exact List.mem_map.mpr ⟨negVec w, hm, rfl⟩
          · have : negVec w = w := List.mem_singleton.mp hm
            rw [this]
            exact List.mem_append_right _ (List.mem_singleton.mpr rfl)
        · intro ht hmem
          rw [posLead_cons_zero] at ht
          rw [negVec_cons, neg_zero] at hmem
          rcases List.mem_append.mp hmem with hm | hm
          · rw [hp1] at hm
            rcases List.mem_append.mp hm with hm' | hm'
            · obtain ⟨u, _, he⟩ := List.mem_map.mp hm'
              have : (1 : Int) = 0 := (List.cons.inj he).1
              norm_num at this
            · rw [hp1b'] at hm'
              obtain ⟨u, hu, he⟩ := List.mem_map.mp hm'
              obtain ⟨-, he2⟩ := List.cons.inj he
              rw [he2] at hu
              exact hIH.2 ht (List.mem_append_left _ hu)
          · have he := List.mem_singleton.mp hm
            obtain ⟨-, he2⟩ := List.cons.inj he
            have : negVec w ∈ t1 ++ [w] :=
              List.mem_append_right _ (List.mem_singleton.mpr he2)
            exact hIH.2 ht this
      · -- v lies in the block of vectors starting with -1
        obtain ⟨t1, w, t2, hT, hp1c, hv, hp2c⟩ := map_eq_append_split _ _ _ _ _ hC
        subst hv
        constructor
        · intro _
          have hw : w ∈ prodTuples n := by
            rw [hT]
            exact List.mem_append_right _ (List.mem_cons_self _ _)
          have hnw : negVec w ∈ prodTuples n := negVec_mem_prodTuples hw
          have : negVec (-1 :: w) = 1 :: negVec w := by
            rw [negVec_cons]; norm_num
          rw [this]
          refine List.mem_append_left _ ?_
          rw [hp1]
          exact List.mem_append_left _ (List.mem_map.mpr ⟨negVec w, hnw, rfl⟩)
        · intro ht
          exact absurd ht (by simp [posLead_cons_negone])

/-! ### The deletion loop computes a filter -/

theorem dedup_eq_filter (pre : List (List Int)) : ∀ (suf : List (List Int)),
    (∀ (p1 : List (List Int)) (v : List Int) (p2 : List (List Int)),
        pre = p1 ++ v :: p2 →
        (posLead v = false → negVec v ∈ p1 ++ [v]) ∧
        (posLead v = true → negVec v ∉ p1 ++ [v])) →
    dedupFrom (pre ++ suf.filter posLead) pre.length
      = pre.filter posLead ++ suf.filter posLead := by
  induction pre using List.reverseRecOn with
  | nil => intro suf _; simp [dedupFrom]
  | append_singleton p1 v ih =>
    intro suf hord
    have hlen : (p1 ++ [v]).length = p1.length + 1 := by simp
    have hassoc : (p1 ++ [v]) ++ suf.filter posLead = p1 ++ v :: suf.filter posLead := by
      simp
    rw [hlen, hassoc]
    show dedupFrom (delStep (p1 ++ v :: suf.filter posLead) p1.length) p1.length = _
    have hget : (p1 ++ v :: suf.filter posLead).getD p1.length [] = v :=
      getD_append_length p1 v _ []
    have hordv := hord p1 v [] rfl
    have hord' : ∀ (q1 : List (List Int)) (w : List Int) (q2 : List (List Int)),
        p1 = q1 ++ w :: q2 →
        (posLead w = false → negVec w ∈ q1 ++ [w]) ∧
        (posLead w = true → negVec w ∉ q1 ++ [w]) := by
      intro q1 w q2 hq
      exact hord q1 w (q2 ++ [v]) (by rw [hq]; simp)
    cases hpv : posLead v with
    | false =>
      have hmem : negVec v ∈ p1 ++ [v] := hordv.1 hpv
      have hmemL0 : negVec v ∈ p1 ++ v :: suf.filter posLead := by
        rcases List.mem_append.mp hmem with hm | hm
        · exact List.mem_append_left _ hm
        · rw [List.mem_singleton.mp hm]
          exact List.mem_append_right _ (List.mem_cons_self _ _)
      rw [delStep, hget, if_pos hmemL0, eraseIdx_append_length p1 v _]
      have hfil : (v :: suf).filter posLead = suf.filter posLead := by
        simp [List.filter_cons, hpv]
      have := ih (v :: suf) hord'
      rw [hfil] at this
      rw [this]
      simp [List.filter_append, List.filter_cons, hpv]
    | true =>
      have hnot : negVec v ∉ p1 ++ [v] := hordv.2 hpv
      have hnotf : negVec v ∉ suf.filter posLead := by
        intro hm
        have := (List.mem_filter.mp hm).2
        rw [posLead_negVec v hpv] at this
        exact absurd this (by simp)
      have hnm : negVec v ∉ p1 ++ v :: suf.filter posLead := by
        intro hm
        rcases List.mem_append.mp hm with hm' | hm'
        · exact hnot (List.mem_append_left _ hm')
        · rcases List.mem_cons.mp hm' with hm'' | hm''
          · exact hnot (List.mem_append_right _ (List.mem_singleton.mpr hm''))
          · exact hnotf hm''
      rw [delStep, hget, if_neg hnm]
      have hfil : (v :: suf).filter posLead = v :: suf.filter posLead := by
        simp [List.filter_cons, hpv]
      have hL0 : p1 ++ v :: suf.filter posLead = p1 ++ (v :: suf).filter posLead := by
        rw [hfil]
      rw [hL0, ih (v :: suf) hord', hfil]
      simp [List.filter_append, List.filter_cons, hpv]

/-- The deletion loop keeps exactly the vectors whose first nonzero
component is `+1`. -/
theorem dv_eq_filter (n : Nat) :
    direction_vectors n = (prodTuples n).filter posLead := by
  have h := dedup_eq_filter (prodTuples n) []
    (fun p1 v p2 hh => ord_prodTuples n p1 v p2 hh)
  simpa [direction_vectors] using h

theorem filter_map_zero : ∀ T : List (List Int),
    ((T.map (fun t => (0 : Int) :: t)).filter posLead)
      = (T.filter posLead).map (fun t => (0 : Int) :: t) := by
  intro T
  induction T with
  | nil => rfl
  | cons t T ih =>
    simp only [List.map_cons, List.filter_cons, posLead_cons_zero]
    by_cases hpt : posLead t = true
    · simp [hpt, ih]
    · simp only [Bool.not_eq_true] at hpt
      simp [hpt, ih]

theorem two_mul_filter_length : ∀ n : Nat,
    2 * ((prodTuples n).filter posLead).length + 1 = 3 ^ n := by
  intro n
  induction n with
  | zero => rfl
  | succ n ih =>
    have hA : ((prodTuples n).map (fun t => (1 : Int) :: t)).filter posLead
        = (prodTuples n).map (fun t => (1 : Int) :: t) := by
      rw [List.filter_eq_self]
      intro a ha
      obtain ⟨t, _, rfl⟩ := List.mem_map.mp ha
      exact posLead_cons_one t
    have hC : ((prodTuples n).map (fun t => (-1 : Int) :: t)).filter posLead = [] := by
      rw [List.filter_eq_nil_iff]
      intro a ha
      obtain ⟨t, _, rfl⟩ := List.mem_map.mp ha
      simp [posLead_cons_negone]
    have h3 : (3 : Nat) ^ (n + 1) = 3 ^ n * 3 := pow_succ 3 n
    simp only [prodTuples, List.filter_append, hA, hC, filter_map_zero,
      List.length_append, List.length_map, length_prodTuples, List.length_nil]
    omega

/-! ### Unfolding lemmas for `place_marker` -/

theorem place_marker_occupied (b : HyperBoard) (marker : Markerish)
    (position : List Int) (p0 : Player) (h : b.board position = some p0) :
    b.place_marker marker position = Except.error MoveError.mk := by
  unfold HyperBoard.place_marker
  rw [h]

theorem place_marker_empty (b : HyperBoard) (marker : Markerish) (position : List Int)
    (h : b.board position = none) :
    b.place_marker marker position =
      (if checkWin (placedBoard b marker position) position b._directions then
        Except.ok ({ placedBoard b marker position with
                      winner := some marker.toPlayer }, true)
      else Except.ok (placedBoard b marker position, false)) := by
  unfold HyperBoard.place_marker placedBoard
  rw [h]

/-! ### The multiplier 0 always survives the tightening loop -/

theorem tighten_fold_bounds (L : Int) :
    ∀ (l : List (Int × Int)) (acc : Int × Int),
      (∀ p ∈ l, 0 ≤ p.2 ∧ p.2 < L) →
      acc.1 ≤ 0 → 0 < acc.2 →
      (l.foldl (tightenStep L) acc).1 ≤ 0 ∧ 0 < (l.foldl (tightenStep L) acc).2 := by
  intro l
  induction l with
  | nil => intro acc _ h1 h2; exact ⟨h1, h2⟩
  | cons p l ih =>
    intro acc hall h1 h2
    rw [List.foldl_cons]
    have hx := hall p (List.mem_cons_self _ _)
    have hstep : (tightenStep L acc p).1 ≤ 0 ∧ 0 < (tightenStep L acc p).2 := by
      by_cases e1 : p.1 = 1
      · have he : tightenStep L acc p = (max acc.1 (-p.2), min acc.2 (L - p.2)) := by
          simp [tightenStep, e1]
        rw [he]
        exact ⟨max_le h1 (by omega), lt_min h2 (by omega)⟩
      · by_cases e2 : p.1 = -1
        · have he : tightenStep L acc p
              = (max acc.1 (1 - (L - p.2)), min acc.2 (p.2 + 1)) := by
            simp [tightenStep, e1, e2]
          rw [he]
          exact ⟨max_le h1 (by omega), lt_min h2 (by omega)⟩
        · have he : tightenStep L acc p = acc := by
            simp [tightenStep, e1, e2]
          rw [he]
          exact ⟨h1, h2⟩
    exact ih _ (fun q hq => hall q (List.mem_cons_of_mem _ hq)) hstep.1 hstep.2

theorem lineRange_around_zero (b : HyperBoard) (direction position : List Int)
    (hpos : ∀ x ∈ position, 0 ≤ x ∧ x < (b.side_length : Int)) :
    (lineRange b direction position).1 ≤ 0 ∧ 0 < (lineRange b direction position).2 := by
  unfold lineRange
  apply tighten_fold_bounds
  · intro p hp
    obtain ⟨dx, x⟩ := p
    exact hpos x (List.of_mem_zip hp).2
  · omega
  · omega

theorem vadd_smul_zero : ∀ (p d : List Int), p.length = d.length →
    vadd p (smul 0 d) = p := by
  intro p
  induction p with
  | nil => intro d _; rfl
  | cons a p ih =>
    intro d hlen
    cases d with
    | nil => simp at hlen
    | cons c d =>
      have ht : vadd p (smul 0 d) = p := ih d (by simpa using hlen)
      show ((a :: p).zip ((0 * c) :: d.map (fun e => 0 * e))).map (fun q => q.1 + q.2)
          = a :: p
      rw [List.zip_cons_cons, List.map_cons]
      have : vadd p (smul 0 d) = (p.zip (d.map (fun e => 0 * e))).map (fun q => q.1 + q.2) := rfl
      rw [← this, ht]
      norm_num

theorem lineWins_of_none : ∀ vals : List (Option Int),
    none ∈ vals → lineWins vals = false := by
  intro vals hmem
  cases vals with
  | nil => rfl
  | cons v rest =>
    show ((v :: rest).all Option.isSome && rest.all (fun u => decide (u = v))) = false
    have hall : ((v :: rest).all Option.isSome) = false := by
      rw [List.all_eq_false]
      exact ⟨none, hmem, by simp⟩
    rw [hall, Bool.false_and]

theorem checkWin_eq_false (b : HyperBoard) (position : List Int) :
    ∀ ds : List (List Int), (∀ d ∈ ds, dirWins b position d = false) →
      checkWin b position ds = false := by
  intro ds
  induction ds with
  | nil => intro _; rfl
  | cons d rest ih =>
    intro h
    show (if dirWins b position d then true else checkWin b position rest) = false
    rw [h d (List.mem_cons_self _ _), if_neg (by simp), ih (fun e he => h e (List.mem_cons_of_mem _ he))]

theorem dirWins_eq_false_of_center_none (b : HyperBoard) (position direction : List Int)
    (hpos : ∀ x ∈ position, 0 ≤ x ∧ x < (b.side_length : Int))
    (hlen : position.length = direction.length)
    (hcell : cellValue (b.board position) = none) :
    dirWins b position direction = false := by
  unfold dirWins
  dsimp only
  split_ifs with hw
  · apply lineWins_of_none
    have hb := lineRange_around_zero b direction position hpos
    have hk : (-(lineRange b direction position).1).toNat
        ∈ List.range ((lineRange b direction position).2
            - (lineRange b direction position).1).toNat := by
      apply List.mem_range.mpr
      omega
    have hmem1 := List.mem_map_of_mem
      (fun k : Nat => b.board (vadd position
        (smul ((lineRange b direction position).1 + (k : Int)) direction))) hk
    have h0 : (lineRange b direction position).1
        + (((-(lineRange b direction position).1).toNat : Nat) : Int) = 0 := by
      omega
    have heq : vadd position
        (smul ((lineRange b direction position).1
          + (((-(lineRange b direction position).1).toNat : Nat) : Int)) direction)
        = position := by
      rw [h0]
      exact vadd_smul_zero position direction hlen
    dsimp only at hmem1
    rw [heq] at hmem1
    have hmem2 := List.mem_map_of_mem cellValue hmem1
    rw [hcell] at hmem2
    unfold lineCells
    exact hmem2
  · rfl

/-! ### Claim theorems: placement behaviour -/

/-- C7 (amended): the win check maps an occupied cell to its marker's
`value()` and an empty cell to `None`, so a marker whose `value()` is the
`None` sentinel is conflated with empty: an in-bounds placement of such a
marker can never be reported as a win. -/
theorem claim_C7_sentinel_marker_never_wins (b : HyperBoard) (marker : Markerish)
    (position : List Int)
    (hib : b.inBounds position = true)
    (hdl : ∀ d ∈ b._directions, d.length = b.ndims)
    (hname : marker.toPlayer.name = none) :
    (b.place_run marker position).2 ≠ some true := by
  have hiblen : position.length = b.ndims ∧
      ∀ x ∈ position, 0 ≤ x ∧ x < (b.side_length : Int) := by
    unfold HyperBoard.inBounds at hib
    rw [Bool.and_eq_true] at hib
    constructor
    · exact of_decide_eq_true hib.1
    · intro x hx
      have hx2 := (List.all_eq_true.mp hib.2) x hx
      rw [Bool.and_eq_true] at hx2
      exact ⟨of_decide_eq_true hx2.1, of_decide_eq_true hx2.2⟩
  unfold HyperBoard.place_run
  cases hcell : b.board position with
  | some p0 =>
    rw [place_marker_occupied b marker position p0 hcell]
    simp
  | none =>
    rw [place_marker_empty b marker position hcell]
    have hfalse : checkWin (placedBoard b marker position) position b._directions
        = false := by
      apply checkWin_eq_false
      intro d hd
      apply dirWins_eq_false_of_center_none
      · intro x hx
        exact hiblen.2 x hx
      · rw [hiblen.1, ← hdl d hd]
      · show cellValue ((placedBoard b marker position).board position) = none
        show cellValue (if position = position then some marker.toPlayer
          else b.board position) = none
        rw [if_pos rfl]
        simp [cellValue, Player.value, hname]
    rw [hfalse]
    simp

/-- C3 (amended): a successful placement that returns `true` sets the
winner to that placement's marker, unconditionally overwriting any
previously recorded winner; a successful placement that returns `false`
leaves the winner unchanged. -/
theorem claim_C3_winner_latest_win (b : HyperBoard) (marker : Markerish)
    (position : List Int) (b' : HyperBoard) (w : Bool)
    (h : b.place_marker marker position = Except.ok (b', w)) :
    b'.winner = if w then some marker.toPlayer else b.winner := by
  cases hcell : b.board position with
  | some p0 =>
    rw [place_marker_occupied b marker position p0 hcell] at h
    exact absurd h (by simp)
  | none =>
    rw [place_marker_empty b marker position hcell] at h
    split_ifs at h with hw
    · simp only [Except.ok.injEq, Prod.mk.injEq] at h
      obtain ⟨hb', hw'⟩ := h
      subst hb'
      subst hw'
      rfl
    · simp only [Except.ok.injEq, Prod.mk.injEq] at h
      obtain ⟨hb', hw'⟩ := h
      subst hb'
      subst hw'
      rfl

/-- C5: placing onto an occupied in-bounds cell raises `MoveError` before
any mutation, so the observable board state after the call is unchanged
and no win scan runs. -/
theorem claim_C5_occupied_cell (b : HyperBoard) (marker : Markerish)
    (position : List Int) (p0 : Player)
    (hib : b.inBounds position = true)
    (hocc : b.board position = some p0) :
    b.place_marker marker position = Except.error MoveError.mk ∧
    b.place_run marker position = (b, none) := by
  have h := place_marker_occupied b marker position p0 hocc
  refine ⟨h, ?_⟩
  unfold HyperBoard.place_run
  rw [h]

/-- C6 (amended): construction never signals an error for natural-number
arguments: for every `side_length ≥ 0` and `dimensions ≥ 0`, including the
values below 1, the constructor succeeds and yields a board with every
cell empty and no winner. -/
theorem claim_C6_construction_never_fails (L : Nat) (n : Nat) :
    HyperBoard.initE L n = some (HyperBoard.init L n)
  ∧ (∀ q : List Int, (HyperBoard.init L n).board q = none)
  ∧ (HyperBoard.init L n).winner = none :=
  ⟨rfl, fun _ => rfl, rfl⟩

/-- C9: passing a plain integer to `place_marker` is the same call as
passing `Player(m)`: identical result (including errors), and a successful
call stores a `Player` whose `value()` is `m` at the position and, on a
win, in the winner slot. -/
theorem claim_C9_int_marker_equiv (b : HyperBoard) (m : Int) (position : List Int) :
    b.place_marker (Markerish.int m) position
      = b.place_marker (Markerish.player ⟨some m⟩) position
  ∧ ∀ (b' : HyperBoard) (w : Bool),
      b.place_marker (Markerish.int m) position = Except.ok (b', w) →
      b'.board position = some ⟨some m⟩ ∧ (w = true → b'.winner = some ⟨some m⟩) := by
  constructor
  · rfl
  · intro b' w h
    cases hcell : b.board position with
    | some p0 =>
      rw [place_marker_occupied b _ position p0 hcell] at h
      exact absurd h (by simp)
    | none =>
      rw [place_marker_empty b _ position hcell] at h
      split_ifs at h with hw
      · simp only [Except.ok.injEq, Prod.mk.injEq] at h
        obtain ⟨hb', hw'⟩ := h
        subst hb'
        constructor
        · show (if position = position then some (Markerish.toPlayer (Markerish.int m))
            else b.board position) = some ⟨some m⟩
          rw [if_pos rfl]
          rfl
        · intro _
          rfl
      · simp only [Except.ok.injEq, Prod.mk.injEq] at h
        obtain ⟨hb', hw'⟩ := h
        subst hb'
        constructor
        · show (if position = position then some (Markerish.toPlayer (Markerish.int m))
            else b.board position) = some ⟨some m⟩
          rw [if_pos rfl]
          rfl
        · intro hww
          rw [← hw'] at hww
          exact absurd hww (by simp)

/-- C10: a successful non-winning placement writes the (wrapped) marker at
the given position and changes nothing else: all other cells, the shape,
the side length, the dimension count, the direction catalog and the winner
are untouched. -/
theorem claim_C10_frame (b : HyperBoard) (marker : Markerish)
    (position : List Int) (b' : HyperBoard)
    (h : b.place_marker marker position = Except.ok (b', false)) :
    b'.board position = some marker.toPlayer
  ∧ (∀ q : List Int, q ≠ position → b'.board q = b.board q)
  ∧ b'.shape = b.shape
  ∧ b'.side_length = b.side_length
  ∧ b'.ndims = b.ndims
  ∧ b'._directions = b._directions
  ∧ b'.winner = b.winner := by
  cases hcell : b.board position with
  | some p0 =>
    rw [place_marker_occupied b marker position p0 hcell] at h
    exact absurd h (by simp)
  | none =>
    rw [place_marker_empty b marker position hcell] at h
    split_ifs at h with hw
    · simp at h
    · simp only [Except.ok.injEq, Prod.mk.injEq] at h
      obtain ⟨hb', -⟩ := h
      subst hb'
      refine ⟨?_, ?_, rfl, rfl, rfl, rfl, rfl⟩
      · show (if position = position then some marker.toPlayer else b.board position)
            = some marker.toPlayer
        rw [if_pos rfl]
      · intro q hq
        show (if q = position then some marker.toPlayer else b.board q) = b.board q
        rw [if_neg hq]

/-! ### Claim theorems: the direction catalog -/

/-- C4: for `n ≥ 1`, `direction_vectors n` has exactly `(3^n - 1)/2`
elements, each a nonzero length-`n` vector over `{-1,0,1}`, no member's
negation is also a member, every nonzero `{-1,0,1}`-vector of length `n`
is in the catalog up to negation, and for `n = 1` the catalog is exactly
`[[1]]`. -/
theorem claim_C4_direction_catalog (n : Nat) (hn : 1 ≤ n) :
    (direction_vectors n).length = (3 ^ n - 1) / 2
  ∧ (∀ v ∈ direction_vectors n,
      v.length = n ∧ (∀ c ∈ v, c = 1 ∨ c = 0 ∨ c = -1) ∧ (∃ c ∈ v, c ≠ 0))
  ∧ (∀ v ∈ direction_vectors n, negVec v ∉ direction_vectors n)
  ∧ (∀ v : List Int, v.length = n → (∀ c ∈ v, c = 1 ∨ c = 0 ∨ c = -1) →
      (∃ c ∈ v, c ≠ 0) →
      v ∈ direction_vectors n ∨ negVec v ∈ direction_vectors n)
  ∧ direction_vectors 1 = [[1]] := by
  have hrw := dv_eq_filter n
  refine ⟨?_, ?_, ?_, ?_, by decide⟩
  · rw [hrw]
    have h := two_mul_filter_length n
    obtain ⟨K, hK⟩ : ∃ K, 3 ^ n = K := ⟨_, rfl⟩
    rw [hK] at h ⊢
    omega
  · intro v hv
    rw [hrw] at hv
    have hm := (List.mem_filter.mp hv).1
    have hp := (List.mem_filter.mp hv).2
    obtain ⟨hlen, hall⟩ := (mem_prodTuples n v).mp hm
    exact ⟨hlen, hall, posLead_exists_ne v hp⟩
  · intro v hv hcon
    rw [hrw] at hv hcon
    have hp := (List.mem_filter.mp hv).2
    have hpn := (List.mem_filter.mp hcon).2
    rw [posLead_negVec v hp] at hpn
    exact absurd hpn (by simp)
  · intro v hlen hall hex
    rw [hrw]
    have hvmem : v ∈ prodTuples n := (mem_prodTuples n v).mpr ⟨hlen, hall⟩
    rcases posLead_or v hall hex with hp | hp
    · exact Or.inl (List.mem_filter.mpr ⟨hvmem, hp⟩)
    · exact Or.inr (List.mem_filter.mpr ⟨negVec_mem_prodTuples hvmem, hp⟩)

/-- C4 witness at `n = 1`. -/
theorem claim_C4_witness :
    (direction_vectors 1).length = (3 ^ 1 - 1) / 2 ∧ direction_vectors 1 = [[1]] :=
  ⟨(claim_C4_direction_catalog 1 (by decide)).1,
   (claim_C4_direction_catalog 1 (by decide)).2.2.2.2⟩

/-- C8: every catalog vector has first nonzero component `+1`; the catalog
is exactly the subsequence of the `product([1,0,-1], repeat=n)` enumeration
keeping those vectors (hence a fixed, deterministic sequence); and the kept
representative of each negation pair occurs before its negation in the
enumeration. -/
theorem claim_C8_kept_representative (n : Nat) (hn : 1 ≤ n) :
    (∀ v ∈ direction_vectors n, posLead v = true)
  ∧ direction_vectors n = (prodTuples n).filter posLead
  ∧ (∀ (p1 : List (List Int)) (v : List Int) (p2 : List (List Int)),
      prodTuples n = p1 ++ v :: p2 → posLead v = true → negVec v ∉ p1) := by
  refine ⟨?_, dv_eq_filter n, ?_⟩
  · intro v hv
    rw [dv_eq_filter n] at hv
    exact (List.mem_filter.mp hv).2
  · intro p1 v p2 hsplit hp hmem
    exact (ord_prodTuples n p1 v p2 hsplit).2 hp (List.mem_append_left _ hmem)

/-- C8 witness at `n = 2`. -/
theorem claim_C8_witness :
    direction_vectors 2 = (prodTuples 2).filter posLead
  ∧ direction_vectors 2 = [[1, 1], [1, 0], [1, -1], [0, 1]] :=
  ⟨(claim_C8_kept_representative 2 (by decide)).2.1, by decide⟩

/-! ### Claim theorems: concrete evaluations -/

/-- C1 (code bug evidence): on a 1-dimensional board of side 3, player 1
fills the whole row at (0), (1), (2); every call returns `False`, including
the one that completes the line, because the interval is initialised to
`[-ndims, ndims+1) = [-1, 2)` and can never span 3. -/
theorem claim_C1_row_win_missed :
    row1.2 = some false ∧ row2.2 = some false ∧ row3.2 = some false
  ∧ row3.1.board [0] = some ⟨some 1⟩
  ∧ row3.1.board [1] = some ⟨some 1⟩
  ∧ row3.1.board [2] = some ⟨some 1⟩
  ∧ row3.1.winner = none := by
  refine ⟨rfl, rfl, rfl, rfl, rfl, rfl, rfl⟩

/-- C2 (code bug evidence): for the in-bounds position (0,) and the catalog
direction (1,) on a side-3 1-dimensional board, the tightening loop yields
`[0, 2)`, even though the multiplier 2 keeps the position in bounds — the
initial symmetric bound `±ndims` truncates the maximal run `[0, 3)`. -/
theorem claim_C2_interval_truncated :
    (HyperBoard.init 3 1).inBounds [0] = true
  ∧ [1] ∈ (HyperBoard.init 3 1)._directions
  ∧ lineRange (HyperBoard.init 3 1) [1] [0] = (0, 2)
  ∧ ((0 : Int) ≤ 0 + 2 * 1 ∧ (0 : Int) + 2 * 1 < 3)
  ∧ ¬ (2 : Int) < (lineRange (HyperBoard.init 3 1) [1] [0]).2 := by
  refine ⟨by decide, by decide, by decide, by decide, by decide⟩

/-- C3 counterexample: on a 2x2 board, player 1 completes a row (winner
becomes player 1), play continues, and player 2's later row win overwrites
the recorded winner. -/
theorem claim_C3_counterexample :
    ow2.2 = some true
  ∧ ow2.1.winner = some ⟨some 1⟩
  ∧ ow3.1.winner = some ⟨some 1⟩
  ∧ ow4.2 = some true
  ∧ ow4.1.winner = some ⟨some 2⟩ := by
  refine ⟨rfl, rfl, rfl, rfl, rfl⟩

/-- C3 witness: the amended statement applied to the winning second move of
the 2x2 scenario. -/
theorem claim_C3_witness :
    ow2.1.winner = if true then some (Markerish.toPlayer (Markerish.int 1))
      else ow1.1.winner :=
  claim_C3_winner_latest_win ow1.1 (Markerish.int 1) [0, 1] ow2.1 true rfl

/-- C5 witness: retrying on the occupied single cell of a 1x1 board. -/
theorem claim_C5_witness :
    occB.place_marker (Markerish.int 7) [0] = Except.error MoveError.mk
  ∧ occB.place_run (Markerish.int 7) [0] = (occB, none) :=
  claim_C5_occupied_cell occB (Markerish.int 7) [0] ⟨some 5⟩ (by decide) rfl

/-- C6 counterexample: `side_length = 0 < 1`, yet construction succeeds
(no construction error exists in the code). -/
theorem claim_C6_counterexample :
    (0 : Nat) < 1 ∧ (HyperBoard.initE 0 2).isSome = true :=
  ⟨by decide, rfl⟩

/-- C7 counterexample: on a 1x1 board the single placement completes a full
line; an ordinary marker wins, but a `Player(None)` marker — whose
`value()` compares equal to the empty sentinel — does not. -/
theorem claim_C7_counterexample :
    ((HyperBoard.init 1 1).place_run (Markerish.int 0) [0]).2 = some true
  ∧ ((HyperBoard.init 1 1).place_run (Markerish.player ⟨none⟩) [0]).2 = some false :=
  ⟨rfl, rfl⟩

/-- C7 witness: the amended statement applied to the 1x1 board. -/
theorem claim_C7_witness :
    ((HyperBoard.init 1 1).place_run (Markerish.player ⟨none⟩) [0]).2 ≠ some true :=
  claim_C7_sentinel_marker_never_wins (HyperBoard.init 1 1)
    (Markerish.player ⟨none⟩) [0] (by decide) (by decide) rfl

/-- C9 witness: placing the plain integer 5 on the 1x1 board. -/
theorem claim_C9_witness :
    (HyperBoard.init 1 1).place_marker (Markerish.int 5) [0]
      = (HyperBoard.init 1 1).place_marker (Markerish.player ⟨some 5⟩) [0]
  ∧ intB.board [0] = some ⟨some 5⟩
  ∧ intB.winner = some ⟨some 5⟩ := by
  refine ⟨(claim_C9_int_marker_equiv (HyperBoard.init 1 1) 5 [0]).1, ?_, ?_⟩
  · exact ((claim_C9_int_marker_equiv (HyperBoard.init 1 1) 5 [0]).2 intB true rfl).1
  · exact ((claim_C9_int_marker_equiv (HyperBoard.init 1 1) 5 [0]).2 intB true rfl).2 rfl

/-- C10 witness: the non-winning first placement on a 1-dimensional side-2
board touches only its own cell. -/
theorem claim_C10_witness :
    frameB.board [0] = some (Markerish.toPlayer (Markerish.int 1))
  ∧ frameB.board [1] = (HyperBoard.init 2 1).board [1]
  ∧ frameB._directions = (HyperBoard.init 2 1)._directions
  ∧ frameB.winner = (HyperBoard.init 2 1).winner := by
  have h := claim_C10_frame (HyperBoard.init 2 1) (Markerish.int 1) [0] frameB rfl
  exact ⟨h.1, h.2.1 [1] (by decide), h.2.2.2.2.2.1, h.2.2.2.2.2.2⟩
